import Mathlib

/-!
Shallow embedding of the hash-table core in `src/HashMap/hashMap.js`
(class `HashMap`), together with proofs of the behavioral properties
stated in the specification.

Modelling conventions:
* A JavaScript string key is modelled as its list of UTF-16 code units
  (`List Nat`), which is exactly what `_hash` consumes via `charCodeAt`.
* A stored JavaScript value is modelled as `Option String`, where `none`
  models the value `undefined`; `get` on an absent key also returns
  `none`, matching the fact that `get` returns `undefined` in that case
  and is observationally identical to a stored `undefined`.
* The load-factor test `this._size / this._capacity > this._loadFactor`
  (with `_loadFactor = 0.75`) is modelled by the exact rational
  comparison `4 * size > 3 * capacity`; for the sizes and power-of-two
  capacities the table reaches, IEEE double division is exact, so the
  comparison agrees with the JavaScript one.
* `console.log` calls and the `_printBuckets` debug helper are pure
  instrumentation with no effect on the data structure and are omitted.
* The `set` guard `if (key == null) throw ...` is unreachable in the
  model because every modelled key is a string (a list of code units).
-/

/-- A key: the UTF-16 code units of the JavaScript string key. -/
abbrev Key : Type := List Nat

/-- A stored value; `none` models the JavaScript value `undefined`. -/
abbrev Val : Type := Option String

/-- One key-value pair stored in a bucket (`{ key, value }` in the source). -/
structure Entry where
  key : Key
  value : Val
  deriving DecidableEq, Repr

/-- The table state: `_buckets`, `_capacity`, `_size`, `_resizeCount`.
The bucket array is a list of chains whose length is the capacity;
an uninitialized array slot is modelled as the empty chain. -/
structure HashMap where
  buckets : List (List Entry)
  capacity : Nat
  size : Nat
  resizeCount : Nat
  deriving DecidableEq, Repr

namespace HashMap

/-- Constructor: `new HashMap(initialCapacity)`, default 16. -/
def new (initialCapacity : Nat := 16) : HashMap :=
  { buckets := List.replicate initialCapacity []
    capacity := initialCapacity
    size := 0
    resizeCount := 0 }

/-- The `_hash` method: polynomial rolling hash, reducing by the current
capacity at every character: `hash = (hash * 31 + charCode) % capacity`. -/
def hash (key : Key) (capacity : Nat) : Nat :=
  key.foldl (fun h c => (h * 31 + c) % capacity) 0

/-- The `_needsResize` method: `size / capacity > 0.75`, as the exact
rational comparison `4 * size > 3 * capacity`. -/
def needsResize (m : HashMap) : Bool :=
  decide (3 * m.capacity < 4 * m.size)

/-- The scan-and-update loop inside `_insertWithoutResize`: walk the
chain; on the first entry with a matching key overwrite its value in
place and stop; otherwise push a new entry at the end. The boolean
reports whether a new entry was appended (`size` must grow). -/
def insertBucket (k : Key) (v : Val) : List Entry → List Entry × Bool
  | [] => ([⟨k, v⟩], true)
  | e :: rest =>
    if e.key == k then (⟨e.key, v⟩ :: rest, false)
    else
      let r := insertBucket k v rest
      (e :: r.1, r.2)

/-- The `_insertWithoutResize` method: hash the key, update or append in
that bucket, and increment `_size` exactly when a new entry was pushed. -/
def insertWithoutResize (m : HashMap) (k : Key) (v : Val) : HashMap :=
  let i := hash k m.capacity
  let r := insertBucket k v (m.buckets.getD i [])
  { m with
    buckets := m.buckets.set i r.1
    size := m.size + (if r.2 then 1 else 0) }

/-- The `_resize` method: double the capacity, start from a fresh empty
bucket array with size zero, and re-insert every entry of every old
bucket in bucket order then chain order via `_insertWithoutResize`. -/
def resize (m : HashMap) : HashMap :=
  let init : HashMap :=
    { buckets := List.replicate (m.capacity * 2) []
      capacity := m.capacity * 2
      size := 0
      resizeCount := m.resizeCount + 1 }
  m.buckets.flatten.foldl (fun t e => insertWithoutResize t e.key e.value) init

/-- The `set` method: run the load-factor check (and a full resize if it
fires) first, then do the bare insert. -/
def set (m : HashMap) (k : Key) (v : Val) : HashMap :=
  let m1 := if needsResize m then resize m else m
  insertWithoutResize m1 k v

/-- The `get` method: hash the key, linearly scan that bucket, return the
matching value or `undefined` (`none`). -/
def get (m : HashMap) (k : Key) : Val :=
  match (m.buckets.getD (hash k m.capacity) []).find? (fun e => e.key == k) with
  | some e => e.value
  | none => none

/-- The `has` method: `this.get(key) !== undefined`. -/
def has (m : HashMap) (k : Key) : Bool :=
  (get m k).isSome

/-- The index-finding part of the removal loop: the index of the first
chain entry whose key matches, if any. -/
def findKeyIdx (k : Key) : List Entry → Option Nat
  | [] => none
  | e :: rest =>
    if e.key == k then some 0
    else (findKeyIdx k rest).map (· + 1)

/-- The swap-and-pop step of `remove`: overwrite the found slot with the
chain's last entry, then drop the last slot. Returns the new chain and
whether a removal happened. -/
def swapPopRemove (k : Key) (b : List Entry) : List Entry × Bool :=
  match findKeyIdx k b with
  | none => (b, false)
  | some i => ((b.set i (b.getLastD ⟨[], none⟩)).dropLast, true)

/-- The `remove` method: gated on `has`; when the gate passes, scan the
hashed bucket, swap-and-pop the matching entry, and decrement `_size`.
Returns the updated table and the boolean result. -/
def remove (m : HashMap) (k : Key) : HashMap × Bool :=
  if has m k then
    let i := hash k m.capacity
    let r := swapPopRemove k (m.buckets.getD i [])
    if r.2 then
      ({ m with buckets := m.buckets.set i r.1, size := m.size - 1 }, true)
    else (m, false)
  else (m, false)

/-- The `length` method: the tracked `_size`. -/
def length (m : HashMap) : Nat :=
  m.size

/-- The `clear` method: fresh empty bucket array, size zero, capacity
unchanged. -/
def clear (m : HashMap) : HashMap :=
  { m with buckets := List.replicate m.capacity [], size := 0 }

/-- The `keys` method: for each bucket in index order, push each chain
entry key in chain order. -/
def keys (m : HashMap) : List Key :=
  m.buckets.foldl (fun acc b => acc ++ b.map Entry.key) []

/-- The `values` method: same traversal as `keys`, collecting values. -/
def values (m : HashMap) : List Val :=
  m.buckets.foldl (fun acc b => acc ++ b.map Entry.value) []

/-- Rendering of a key back to the JavaScript string it models. -/
def keyStr (k : Key) : String :=
  String.mk (k.map Char.ofNat)

/-- Rendering of a stored value in template-literal position; the value
`undefined` prints as the string `undefined`. -/
def valStr : Val → String
  | some s => s
  | none => "undefined"

/-- The template literal of `entries`: the string `[key, value]`. -/
def fmtEntry (e : Entry) : String :=
  "[" ++ keyStr e.key ++ ", " ++ valStr e.value ++ "]"

/-- The `entries` method: same traversal as `keys`, collecting the
formatted `[key, value]` rendering of each stored pair. -/
def entries (m : HashMap) : List String :=
  m.buckets.foldl (fun acc b => acc ++ b.map fmtEntry) []

/-- Lookup inside a single chain, exactly the scan of `get`: the value of
the first entry whose key matches, else `undefined` (`none`). -/
def bucketGet (b : List Entry) (k : Key) : Val :=
  match b.find? (fun e => e.key == k) with
  | some e => e.value
  | none => none

/-- All stored entries in observation order: bucket index order first,
chain order within a bucket. -/
def allEntries (m : HashMap) : List Entry :=
  m.buckets.flatten

/-- The keys of all stored entries, in the same order. -/
def keysList (m : HashMap) : List Key :=
  (allEntries m).map Entry.key

/-- Well-formedness of a table state: positive capacity, bucket array
length equal to the capacity, every entry sitting in the bucket its key
hashes to, globally duplicate-free keys, and `_size` equal to the true
number of stored entries. -/
def WF (m : HashMap) : Prop :=
  0 < m.capacity ∧
  m.buckets.length = m.capacity ∧
  (∀ i, i < m.buckets.length → ∀ e ∈ m.buckets.getD i [], hash e.key m.capacity = i) ∧
  (keysList m).Nodup ∧
  m.size = (allEntries m).length

/-- The growth bound maintained across operations: the size can exceed
three quarters of the capacity by at most one entry. -/
def Bound (m : HashMap) : Prop :=
  4 * m.size ≤ 3 * m.capacity + 4

/-- The table states reachable through the public API from a constructor
call with positive capacity. -/
inductive Reachable : HashMap → Prop
  | new (c : Nat) (hc : 0 < c) : Reachable (HashMap.new c)
  | set {m : HashMap} (hm : Reachable m) (k : Key) (v : Val) : Reachable (HashMap.set m k v)
  | remove {m : HashMap} (hm : Reachable m) (k : Key) : Reachable (HashMap.remove m k).1
  | clear {m : HashMap} (hm : Reachable m) : Reachable (HashMap.clear m)

instance (m : HashMap) : Decidable (WF m) := by
  unfold WF
  infer_instance

instance (m : HashMap) : Decidable (Bound m) := by
  unfold Bound
  infer_instance

/-- Twelve distinct one-character keys (`a` through `l`), used to realize
the spec scenario of a capacity-16 table holding twelve entries. -/
def exKeys : List Key :=
  [[97], [98], [99], [100], [101], [102], [103], [104], [105], [106], [107], [108]]

/-- The table after inserting the twelve scenario keys into a fresh
default-capacity table. -/
def ex12 : HashMap :=
  exKeys.foldl (fun m k => m.set k (some "x")) (HashMap.new 16)

/-- The table after the thirteenth distinct insertion (`m`). -/
def ex13 : HashMap :=
  ex12.set [109] (some "x")

end HashMap

namespace HashMap

/-! ### Chain-level lemmas about `insertBucket` -/

theorem bucketGet_nil (k : Key) : bucketGet [] k = none := rfl

theorem bucketGet_cons (e : Entry) (rest : List Entry) (k : Key) :
    bucketGet (e :: rest) k = if e.key = k then e.value else bucketGet rest k := by
  by_cases h : e.key = k
  · unfold bucketGet
    rw [@List.find?_cons_of_pos Entry (fun x => x.key == k) e rest (by simp [h])]
    simp [h]
  · unfold bucketGet
    rw [@List.find?_cons_of_neg Entry (fun x => x.key == k) e rest (by simp [h])]
    simp [h]

theorem insertBucket_get_self (k : Key) (v : Val) (b : List Entry) :
    bucketGet (insertBucket k v b).1 k = v := by
  induction b with
  | nil => simp [insertBucket, bucketGet_cons, bucketGet_nil]
  | cons e rest ih =>
    by_cases h : e.key = k
    · simp [insertBucket, h, bucketGet_cons]
    · simp [insertBucket, h, bucketGet_cons, ih]

theorem insertBucket_get_other (k k2 : Key) (v : Val) (b : List Entry)
    (hne : k2 ≠ k) :
    bucketGet (insertBucket k v b).1 k2 = bucketGet b k2 := by
  have hkk : k ≠ k2 := Ne.symm hne
  induction b with
  | nil => simp [insertBucket, bucketGet_cons, bucketGet_nil, hkk]
  | cons e rest ih =>
    by_cases h : e.key = k
    · simp [insertBucket, h, hkk, bucketGet_cons]
    · simp [insertBucket, h, bucketGet_cons, ih]

theorem insertBucket_snd (k : Key) (v : Val) (b : List Entry) :
    (insertBucket k v b).2 = true ↔ k ∉ b.map Entry.key := by
  induction b with
  | nil => simp [insertBucket]
  | cons e rest ih =>
    by_cases h : e.key = k
    · simp [insertBucket, h]
    · simpa [insertBucket, h, Ne.symm h] using ih

theorem insertBucket_keys_mem (k : Key) (v : Val) (b : List Entry)
    (hmem : k ∈ b.map Entry.key) :
    (insertBucket k v b).1.map Entry.key = b.map Entry.key := by
  induction b with
  | nil => simp at hmem
  | cons e rest ih =>
    by_cases h : e.key = k
    · simp [insertBucket, h]
    · have hrest : k ∈ rest.map Entry.key := by
        simpa [h, Ne.symm h] using hmem
      simp [insertBucket, h, ih hrest]

theorem insertBucket_keys_new (k : Key) (v : Val) (b : List Entry)
    (hmem : k ∉ b.map Entry.key) :
    (insertBucket k v b).1.map Entry.key = b.map Entry.key ++ [k] := by
  induction b with
  | nil => simp [insertBucket]
  | cons e rest ih =>
    have h : e.key ≠ k := by
      intro hek
      exact hmem (by simp [hek])
    have hrest : k ∉ rest.map Entry.key := fun hk => hmem (by simp [hk])
    simp [insertBucket, h, ih hrest]

theorem insertBucket_length (k : Key) (v : Val) (b : List Entry) :
    (insertBucket k v b).1.length =
      b.length + (if (insertBucket k v b).2 then 1 else 0) := by
  induction b with
  | nil => simp [insertBucket]
  | cons e rest ih =>
    by_cases h : e.key = k
    · simp [insertBucket, h]
    · simp only [insertBucket, beq_iff_eq, h, if_false]
      simp only [List.length_cons, ih]
      ring

theorem mem_insertBucket (k : Key) (v : Val) (b : List Entry) (e : Entry)
    (he : e ∈ (insertBucket k v b).1) :
    e.key = k ∨ e.key ∈ b.map Entry.key := by
  induction b with
  | nil =>
    simp [insertBucket] at he
    simp [he]
  | cons f rest ih =>
    by_cases h : f.key = k
    · simp [insertBucket, h] at he
      rcases he with he | he
      · left
        rw [he]
      · right
        simp [List.mem_map]
        exact Or.inr ⟨e, he, rfl⟩
    · simp only [insertBucket, beq_iff_eq, h, if_false, List.mem_cons] at he
      rcases he with he | he
      · right
        simp [he]
      · rcases ih he with hk | hk
        · exact Or.inl hk
        · right
          simp [hk]

/-! ### The hash function -/

theorem hash_lt (k : Key) (c : Nat) (hc : 0 < c) : hash k c < c := by
  have step : ∀ (l : List Nat) (acc : Nat), acc < c →
      l.foldl (fun h ch => (h * 31 + ch) % c) acc < c := by
    intro l
    induction l with
    | nil =>
      intro acc hacc
      simpa using hacc
    | cons a t ih =>
      intro acc hacc
      exact ih _ (Nat.mod_lt _ hc)
  exact step k 0 hc

theorem hash_nil (c : Nat) : hash [] c = 0 := rfl

theorem hash_append_char (k : Key) (a : Nat) (c : Nat) :
    hash (k ++ [a]) c = (hash k c * 31 + a) % c := by
  simp [hash, List.foldl_append]

/-! ### Array-of-buckets helpers -/

theorem getD_set_self (B : List (List Entry)) (i : Nat) (b : List Entry)
    (h : i < B.length) : (B.set i b).getD i [] = b := by
  rw [List.getD_eq_getElem?_getD, List.getElem?_set_self h]
  rfl

theorem getD_set_ne (B : List (List Entry)) (i j : Nat) (b : List Entry)
    (h : i ≠ j) : (B.set i b).getD j [] = B.getD j [] := by
  rw [List.getD_eq_getElem?_getD, List.getElem?_set_ne h, ← List.getD_eq_getElem?_getD]

theorem getD_mem (B : List (List Entry)) (i : Nat) (h : i < B.length) :
    B.getD i [] ∈ B := by
  rw [List.getD_eq_getElem?_getD, List.getElem?_eq_getElem h]
  exact List.getElem_mem h

theorem flatten_set_perm (B : List (List Entry)) (i : Nat) (b : List Entry)
    (h : i < B.length) :
    ((B.set i b).flatten ++ B.getD i []).Perm (B.flatten ++ b) := by
  induction B generalizing i with
  | nil => simp at h
  | cons x t ih =>
    cases i with
    | zero =>
      rw [List.perm_iff_count]
      intro a
      simp [List.count_append]
      omega
    | succ j =>
      have hj : j < t.length := by simpa using h
      have h2 := (List.perm_iff_count).1 (ih j hj)
      rw [List.perm_iff_count]
      intro a
      have h3 := h2 a
      simp only [List.set_cons_succ, List.getD_cons_succ, List.flatten_cons,
        List.count_append] at h3 ⊢
      omega

/-! ### Where a stored key lives -/

theorem get_eq_bucketGet (m : HashMap) (k : Key) :
    get m k = bucketGet (m.buckets.getD (hash k m.capacity) []) k := rfl

theorem mem_keysList_of_mem_bucket (m : HashMap) (k : Key)
    (hcap : 0 < m.capacity) (hlen : m.buckets.length = m.capacity)
    (hk : k ∈ (m.buckets.getD (hash k m.capacity) []).map Entry.key) :
    k ∈ keysList m := by
  have hlt : hash k m.capacity < m.buckets.length := by
    rw [hlen]
    exact hash_lt k _ hcap
  rw [List.mem_map] at hk
  obtain ⟨e, he, hek⟩ := hk
  refine List.mem_map.2 ⟨e, ?_, hek⟩
  exact List.mem_flatten.2 ⟨_, getD_mem _ _ hlt, he⟩

theorem mem_bucket_of_mem_keysList (m : HashMap) (k : Key)
    (hidx : ∀ i, i < m.buckets.length →
      ∀ e ∈ m.buckets.getD i [], hash e.key m.capacity = i)
    (hk : k ∈ keysList m) :
    k ∈ (m.buckets.getD (hash k m.capacity) []).map Entry.key := by
  simp only [keysList, allEntries, List.mem_map] at hk
  obtain ⟨e, he, hek⟩ := hk
  rw [List.mem_flatten] at he
  obtain ⟨bkt, hbkt, hebkt⟩ := he
  obtain ⟨j, hj, hBj⟩ := List.mem_iff_getElem.1 hbkt
  have hgetD : m.buckets.getD j [] = bkt := by
    rw [List.getD_eq_getElem?_getD, List.getElem?_eq_getElem hj]
    simp [hBj]
  have hhash := hidx j hj e (by rw [hgetD]; exact hebkt)
  rw [hek] at hhash
  rw [hhash, hgetD]
  exact List.mem_map.2 ⟨e, hebkt, hek⟩

/-! ### Lemmas about the bare insert `_insertWithoutResize` -/

theorem insert_capacity (m : HashMap) (k : Key) (v : Val) :
    (insertWithoutResize m k v).capacity = m.capacity := rfl

theorem insert_resizeCount (m : HashMap) (k : Key) (v : Val) :
    (insertWithoutResize m k v).resizeCount = m.resizeCount := rfl

theorem insert_buckets_length (m : HashMap) (k : Key) (v : Val) :
    (insertWithoutResize m k v).buckets.length = m.buckets.length := by
  simp [insertWithoutResize]

theorem insert_get_self (m : HashMap) (k : Key) (v : Val)
    (hcap : 0 < m.capacity) (hlen : m.buckets.length = m.capacity) :
    get (insertWithoutResize m k v) k = v := by
  have hlt : hash k m.capacity < m.buckets.length := by
    rw [hlen]
    exact hash_lt k _ hcap
  rw [get_eq_bucketGet]
  simp only [insertWithoutResize]
  rw [getD_set_self _ _ _ hlt]
  exact insertBucket_get_self k v _

theorem insert_get_other (m : HashMap) (k k2 : Key) (v : Val)
    (hcap : 0 < m.capacity) (hlen : m.buckets.length = m.capacity)
    (hne : k2 ≠ k) :
    get (insertWithoutResize m k v) k2 = get m k2 := by
  have hlt : hash k m.capacity < m.buckets.length := by
    rw [hlen]
    exact hash_lt k _ hcap
  rw [get_eq_bucketGet, get_eq_bucketGet]
  simp only [insertWithoutResize]
  by_cases hj : hash k2 m.capacity = hash k m.capacity
  · rw [hj, getD_set_self _ _ _ hlt]
    exact insertBucket_get_other k k2 v _ hne
  · rw [getD_set_ne _ _ _ _ (fun h => hj h.symm)]

theorem insert_size_mem (m : HashMap) (k : Key) (v : Val)
    (hm : WF m) (hk : k ∈ keysList m) :
    (insertWithoutResize m k v).size = m.size := by
  obtain ⟨hcap, hlen, hidx, hnd, hsz⟩ := hm
  have hb := mem_bucket_of_mem_keysList m k hidx hk
  have hsnd : (insertBucket k v (m.buckets.getD (hash k m.capacity) [])).2 = false := by
    cases hs : (insertBucket k v (m.buckets.getD (hash k m.capacity) [])).2
    · rfl
    · exact absurd hb ((insertBucket_snd k v _).1 hs)
  simp only [insertWithoutResize, hsnd]
  simp

theorem insert_size_fresh (m : HashMap) (k : Key) (v : Val)
    (hcap : 0 < m.capacity) (hlen : m.buckets.length = m.capacity)
    (hk : k ∉ keysList m) :
    (insertWithoutResize m k v).size = m.size + 1 := by
  have hb : k ∉ (m.buckets.getD (hash k m.capacity) []).map Entry.key := fun hmem =>
    hk (mem_keysList_of_mem_bucket m k hcap hlen hmem)
  have hsnd : (insertBucket k v (m.buckets.getD (hash k m.capacity) [])).2 = true :=
    (insertBucket_snd k v _).2 hb
  simp only [insertWithoutResize, hsnd]
  simp

theorem keysList_insert_perm_mem (m : HashMap) (k : Key) (v : Val)
    (hm : WF m) (hk : k ∈ keysList m) :
    (keysList (insertWithoutResize m k v)).Perm (keysList m) := by
  obtain ⟨hcap, hlen, hidx, hnd, hsz⟩ := hm
  have hb := mem_bucket_of_mem_keysList m k hidx hk
  have hlt : hash k m.capacity < m.buckets.length := by
    rw [hlen]
    exact hash_lt k _ hcap
  have hperm := (flatten_set_perm m.buckets (hash k m.capacity)
    (insertBucket k v (m.buckets.getD (hash k m.capacity) [])).1 hlt).map Entry.key
  have hkeys := insertBucket_keys_mem k v (m.buckets.getD (hash k m.capacity) []) hb
  rw [List.perm_iff_count]
  intro a
  have hc := (List.perm_iff_count.1 hperm) a
  simp only [List.map_append, List.count_append, hkeys] at hc
  simp only [keysList, allEntries, insertWithoutResize] at hc ⊢
  omega

theorem keysList_insert_perm_fresh (m : HashMap) (k : Key) (v : Val)
    (hcap : 0 < m.capacity) (hlen : m.buckets.length = m.capacity)
    (hk : k ∉ keysList m) :
    (keysList (insertWithoutResize m k v)).Perm (k :: keysList m) := by
  have hb : k ∉ (m.buckets.getD (hash k m.capacity) []).map Entry.key := fun hmem =>
    hk (mem_keysList_of_mem_bucket m k hcap hlen hmem)
  have hlt : hash k m.capacity < m.buckets.length := by
    rw [hlen]
    exact hash_lt k _ hcap
  have hperm := (flatten_set_perm m.buckets (hash k m.capacity)
    (insertBucket k v (m.buckets.getD (hash k m.capacity) [])).1 hlt).map Entry.key
  have hkeys := insertBucket_keys_new k v (m.buckets.getD (hash k m.capacity) []) hb
  have h1 : (keysList (insertWithoutResize m k v)).Perm (keysList m ++ [k]) := by
    rw [List.perm_iff_count]
    intro a
    have hc := (List.perm_iff_count.1 hperm) a
    simp only [List.map_append, List.count_append, hkeys] at hc
    simp only [keysList, allEntries, insertWithoutResize, List.count_append]
    omega
  exact h1.trans (List.perm_append_singleton k (keysList m))

theorem keysList_length (m : HashMap) :
    (keysList m).length = (allEntries m).length := by
  simp [keysList]

theorem insert_WF (m : HashMap) (k : Key) (v : Val) (hm : WF m) :
    WF (insertWithoutResize m k v) := by
  obtain ⟨hcap, hlen, hidx, hnd, hsz⟩ := hm
  have hlt : hash k m.capacity < m.buckets.length := by
    rw [hlen]
    exact hash_lt k _ hcap
  have hbe : (insertWithoutResize m k v).buckets =
      m.buckets.set (hash k m.capacity)
        (insertBucket k v (m.buckets.getD (hash k m.capacity) [])).1 := rfl
  refine ⟨hcap, ?_, ?_, ?_, ?_⟩
  · rw [insert_buckets_length, insert_capacity]
    exact hlen
  · intro j hj e he
    rw [insert_buckets_length] at hj
    rw [hbe] at he
    rw [show (insertWithoutResize m k v).capacity = m.capacity from rfl]
    by_cases hji : j = hash k m.capacity
    · subst hji
      rw [getD_set_self _ _ _ hlt] at he
      rcases mem_insertBucket k v _ e he with hek | hek
      · rw [hek]
      · obtain ⟨f, hf, hfk⟩ := List.mem_map.1 hek
        rw [← hfk]
        exact hidx _ hj f hf
    · rw [getD_set_ne _ _ _ _ (fun h => hji h.symm)] at he
      exact hidx j hj e he
  · by_cases hk : k ∈ keysList m
    · exact ((keysList_insert_perm_mem m k v ⟨hcap, hlen, hidx, hnd, hsz⟩ hk).nodup_iff).2 hnd
    · exact ((keysList_insert_perm_fresh m k v hcap hlen hk).nodup_iff).2
        (List.nodup_cons.2 ⟨hk, hnd⟩)
  · by_cases hk : k ∈ keysList m
    · have h1 := insert_size_mem m k v ⟨hcap, hlen, hidx, hnd, hsz⟩ hk
      have h2 := (keysList_insert_perm_mem m k v ⟨hcap, hlen, hidx, hnd, hsz⟩ hk).length_eq
      rw [keysList_length, keysList_length] at h2
      rw [h1, h2]
      exact hsz
    · have h1 := insert_size_fresh m k v hcap hlen hk
      have h2 := (keysList_insert_perm_fresh m k v hcap hlen hk).length_eq
      rw [keysList_length, List.length_cons, keysList_length] at h2
      rw [h1, h2, hsz]

theorem getD_replicate_nil (n j : Nat) :
    (List.replicate n ([] : List Entry)).getD j [] = [] := by
  rw [List.getD_eq_getElem?_getD, List.getElem?_replicate]
  split <;> rfl

theorem flatten_replicate_nil (n : Nat) :
    (List.replicate n ([] : List Entry)).flatten = [] := by
  induction n with
  | zero => rfl
  | succ n ih => simp [List.replicate_succ, ih]

/-- Under well-formedness, looking up a key through the hash-addressed
bucket agrees with a linear scan of all stored entries. -/
theorem get_eq_bucketGet_allEntries (m : HashMap) (k : Key) (hm : WF m) :
    get m k = bucketGet (allEntries m) k := by
  obtain ⟨hcap, hlen, hidx, hnd, hsz⟩ := hm
  have hnd2 : ((allEntries m).map Entry.key).Nodup := hnd
  have hlt : hash k m.capacity < m.buckets.length := by
    rw [hlen]
    exact hash_lt k _ hcap
  rw [get_eq_bucketGet]
  unfold bucketGet
  cases hf : List.find? (fun e => e.key == k) (m.buckets.getD (hash k m.capacity) []) with
  | some e =>
    have hek : e.key = k := by simpa using List.find?_some hf
    have hemem : e ∈ allEntries m :=
      List.mem_flatten.2 ⟨_, getD_mem _ _ hlt, List.mem_of_find?_eq_some hf⟩
    cases hg : List.find? (fun e => e.key == k) (allEntries m) with
    | some f =>
      have hfk : f.key = k := by simpa using List.find?_some hg
      have hfmem : f ∈ allEntries m := List.mem_of_find?_eq_some hg
      have hef : e = f :=
        List.inj_on_of_nodup_map hnd2 hemem hfmem (by rw [hek, hfk])
      rw [hef]
    | none =>
      exact absurd (List.find?_eq_none.1 hg e hemem) (by simp [hek])
  | none =>
    cases hg : List.find? (fun e => e.key == k) (allEntries m) with
    | some f =>
      have hfk : f.key = k := by simpa using List.find?_some hg
      have hfmem : f ∈ allEntries m := List.mem_of_find?_eq_some hg
      obtain ⟨bkt, hbkt, hfb⟩ := List.mem_flatten.1 hfmem
      obtain ⟨j, hj, hBj⟩ := List.mem_iff_getElem.1 hbkt
      have hgetD : m.buckets.getD j [] = bkt := by
        rw [List.getD_eq_getElem?_getD, List.getElem?_eq_getElem hj]
        simp [hBj]
      have hhash := hidx j hj f (by rw [hgetD]; exact hfb)
      rw [hfk] at hhash
      have hfbi : f ∈ m.buckets.getD (hash k m.capacity) [] := by
        rw [hhash, hgetD]
        exact hfb
      exact absurd (List.find?_eq_none.1 hf f hfbi) (by simp [hfk])
    | none => rfl

/-- The rehash loop: folding the bare insert over a duplicate-free entry
list whose keys are disjoint from the accumulator table. -/
theorem foldl_insert_spec (L : List Entry) :
    ∀ (t : HashMap), WF t → (L.map Entry.key).Nodup →
    (∀ a ∈ L.map Entry.key, a ∉ keysList t) →
    WF (L.foldl (fun t e => insertWithoutResize t e.key e.value) t) ∧
    (L.foldl (fun t e => insertWithoutResize t e.key e.value) t).size = t.size + L.length ∧
    (L.foldl (fun t e => insertWithoutResize t e.key e.value) t).capacity = t.capacity ∧
    (L.foldl (fun t e => insertWithoutResize t e.key e.value) t).resizeCount = t.resizeCount ∧
    (keysList (L.foldl (fun t e => insertWithoutResize t e.key e.value) t)).Perm
      (keysList t ++ L.map Entry.key) ∧
    ∀ k2, get (L.foldl (fun t e => insertWithoutResize t e.key e.value) t) k2 =
      (L.find? (fun e => e.key == k2)).elim (get t k2) Entry.value := by
  induction L with
  | nil =>
    intro t ht hnd hdisj
    exact ⟨ht, by simp, rfl, rfl, by simp, fun k2 => by simp [List.find?]⟩
  | cons e L2 ih =>
    intro t ht hnd hdisj
    simp only [List.foldl_cons]
    have hcap : 0 < t.capacity := ht.1
    have hlen : t.buckets.length = t.capacity := ht.2.1
    have hefresh : e.key ∉ keysList t := hdisj e.key (by simp)
    have hwf1 : WF (insertWithoutResize t e.key e.value) := insert_WF t e.key e.value ht
    have hsize1 : (insertWithoutResize t e.key e.value).size = t.size + 1 :=
      insert_size_fresh t e.key e.value hcap hlen hefresh
    have hperm1 : (keysList (insertWithoutResize t e.key e.value)).Perm
        (e.key :: keysList t) :=
      keysList_insert_perm_fresh t e.key e.value hcap hlen hefresh
    have hndcons : (e.key :: L2.map Entry.key).Nodup := by
      simpa only [List.map_cons] using hnd
    have hndpair := List.nodup_cons.1 hndcons
    have heL2 : e.key ∉ L2.map Entry.key := hndpair.1
    have hndL2 : (L2.map Entry.key).Nodup := hndpair.2
    have hdisj2 : ∀ a ∈ L2.map Entry.key, a ∉ keysList (insertWithoutResize t e.key e.value) := by
      intro a ha hmem
      rcases List.mem_cons.1 (hperm1.mem_iff.1 hmem) with h | h
      · exact heL2 (h ▸ ha)
      · exact hdisj a (by simp [ha]) h
    obtain ⟨W, S, C, R, P, G⟩ := ih (insertWithoutResize t e.key e.value) hwf1 hndL2 hdisj2
    refine ⟨W, ?_, ?_, ?_, ?_, ?_⟩
    · rw [S, hsize1]
      simp only [List.length_cons]
      omega
    · rw [C]
      exact insert_capacity t e.key e.value
    · rw [R]
      exact insert_resizeCount t e.key e.value
    · refine P.trans ?_
      refine (hperm1.append_right (L2.map Entry.key)).trans ?_
      simp only [List.map_cons, List.cons_append]
      exact List.perm_middle.symm
    · intro k2
      by_cases hk : e.key = k2
      · have hfind : List.find? (fun f => f.key == k2) (e :: L2) = some e :=
          List.find?_cons_of_pos _ (by simp [hk])
        have hnone : List.find? (fun f => f.key == k2) L2 = none := by
          refine List.find?_eq_none.2 ?_
          intro x hx
          simp only [beq_iff_eq, Bool.not_eq_true, decide_eq_false_iff_not]
          intro hxk
          exact heL2 (List.mem_map.2 ⟨x, hx, hxk.trans hk.symm⟩)
        rw [hfind, G k2, hnone]
        simp only [Option.elim]
        rw [← hk]
        exact insert_get_self t e.key e.value hcap hlen
      · have hfind : List.find? (fun f => f.key == k2) (e :: L2) =
            List.find? (fun f => f.key == k2) L2 :=
          List.find?_cons_of_neg _ (by simp [hk])
        rw [hfind, G k2,
          insert_get_other t e.key k2 e.value hcap hlen (Ne.symm hk)]

/-- Everything `_resize` guarantees on a well-formed table: capacity
doubles, the resize counter advances once, the stored associations and
the size are preserved. -/
theorem resize_spec (m : HashMap) (hm : WF m) :
    WF (resize m) ∧ (resize m).size = m.size ∧
    (resize m).capacity = m.capacity * 2 ∧
    (resize m).resizeCount = m.resizeCount + 1 ∧
    (keysList (resize m)).Perm (keysList m) ∧
    ∀ k, get (resize m) k = get m k := by
  obtain ⟨hcap, hlen, hidx, hnd, hsz⟩ := hm
  have ht0 : WF { buckets := List.replicate (m.capacity * 2) []
                  capacity := m.capacity * 2
                  size := 0
                  resizeCount := m.resizeCount + 1 : HashMap } := by
    refine ⟨(by omega : 0 < m.capacity * 2), by simp, ?_, ?_, ?_⟩
    · intro j hj e he
      rw [getD_replicate_nil] at he
      exact absurd he (List.not_mem_nil e)
    · simp [keysList, allEntries, flatten_replicate_nil]
    · simp [allEntries, flatten_replicate_nil]
  obtain ⟨W, S, C, R, P, G⟩ := foldl_insert_spec (allEntries m) _ ht0 hnd
    (by simp [keysList, allEntries, flatten_replicate_nil])
  have hre : resize m = (allEntries m).foldl
      (fun t e => insertWithoutResize t e.key e.value)
      { buckets := List.replicate (m.capacity * 2) []
        capacity := m.capacity * 2
        size := 0
        resizeCount := m.resizeCount + 1 : HashMap } := rfl
  rw [hre]
  refine ⟨W, ?_, ?_, R, ?_, ?_⟩
  · rw [S]
    show 0 + (allEntries m).length = m.size
    omega
  · exact C
  · refine P.trans ?_
    simp [keysList, allEntries, flatten_replicate_nil]
  · intro k
    rw [G k]
    have hget0 : get { buckets := List.replicate (m.capacity * 2) []
                       capacity := m.capacity * 2
                       size := 0
                       resizeCount := m.resizeCount + 1 : HashMap } k = none := by
      rw [get_eq_bucketGet]
      simp only [getD_replicate_nil]
      exact bucketGet_nil k
    rw [hget0, get_eq_bucketGet_allEntries m k ⟨hcap, hlen, hidx, hnd, hsz⟩]
    unfold bucketGet
    cases hf : List.find? (fun e => e.key == k) (allEntries m) <;> rfl

/-! ### Lemmas about `set` (resize gate followed by bare insert) -/

theorem set_eq_of_not_resize (m : HashMap) (k : Key) (v : Val)
    (h : needsResize m = false) :
    set m k v = insertWithoutResize m k v := by
  unfold set
  rw [h]
  simp

theorem set_eq_of_resize (m : HashMap) (k : Key) (v : Val)
    (h : needsResize m = true) :
    set m k v = insertWithoutResize (resize m) k v := by
  unfold set
  rw [h]
  simp

theorem set_WF (m : HashMap) (k : Key) (v : Val) (hm : WF m) :
    WF (set m k v) := by
  cases h : needsResize m
  · rw [set_eq_of_not_resize m k v h]
    exact insert_WF m k v hm
  · rw [set_eq_of_resize m k v h]
    exact insert_WF _ k v (resize_spec m hm).1

theorem set_capacity (m : HashMap) (k : Key) (v : Val) (hm : WF m) :
    (set m k v).capacity =
      (if needsResize m then m.capacity * 2 else m.capacity) := by
  cases h : needsResize m
  · rw [set_eq_of_not_resize m k v h, insert_capacity]
    simp
  · rw [set_eq_of_resize m k v h, insert_capacity,
      (resize_spec m hm).2.2.1]
    simp

theorem set_resizeCount (m : HashMap) (k : Key) (v : Val) (hm : WF m) :
    (set m k v).resizeCount =
      (if needsResize m then m.resizeCount + 1 else m.resizeCount) := by
  cases h : needsResize m
  · rw [set_eq_of_not_resize m k v h, insert_resizeCount]
    simp
  · rw [set_eq_of_resize m k v h, insert_resizeCount,
      (resize_spec m hm).2.2.2.1]
    simp

theorem set_get_self (m : HashMap) (k : Key) (v : Val) (hm : WF m) :
    get (set m k v) k = v := by
  cases h : needsResize m
  · rw [set_eq_of_not_resize m k v h]
    exact insert_get_self m k v hm.1 hm.2.1
  · rw [set_eq_of_resize m k v h]
    have hw := (resize_spec m hm).1
    exact insert_get_self _ k v hw.1 hw.2.1

theorem set_get_other (m : HashMap) (k k2 : Key) (v : Val) (hm : WF m)
    (hne : k2 ≠ k) :
    get (set m k v) k2 = get m k2 := by
  cases h : needsResize m
  · rw [set_eq_of_not_resize m k v h]
    exact insert_get_other m k k2 v hm.1 hm.2.1 hne
  · rw [set_eq_of_resize m k v h]
    have hw := (resize_spec m hm).1
    rw [insert_get_other _ k k2 v hw.1 hw.2.1 hne]
    exact (resize_spec m hm).2.2.2.2.2 k2

theorem set_size_mem (m : HashMap) (k : Key) (v : Val) (hm : WF m)
    (hk : k ∈ keysList m) :
    (set m k v).size = m.size := by
  cases h : needsResize m
  · rw [set_eq_of_not_resize m k v h]
    exact insert_size_mem m k v hm hk
  · rw [set_eq_of_resize m k v h]
    have hw := (resize_spec m hm).1
    have hk2 : k ∈ keysList (resize m) :=
      ((resize_spec m hm).2.2.2.2.1.mem_iff).2 hk
    rw [insert_size_mem _ k v hw hk2]
    exact (resize_spec m hm).2.1

theorem set_size_fresh (m : HashMap) (k : Key) (v : Val) (hm : WF m)
    (hk : k ∉ keysList m) :
    (set m k v).size = m.size + 1 := by
  cases h : needsResize m
  · rw [set_eq_of_not_resize m k v h]
    exact insert_size_fresh m k v hm.1 hm.2.1 hk
  · rw [set_eq_of_resize m k v h]
    have hw := (resize_spec m hm).1
    have hk2 : k ∉ keysList (resize m) := fun hmem =>
      hk (((resize_spec m hm).2.2.2.2.1.mem_iff).1 hmem)
    rw [insert_size_fresh _ k v hw.1 hw.2.1 hk2]
    rw [(resize_spec m hm).2.1]

theorem keysList_set_perm_mem (m : HashMap) (k : Key) (v : Val) (hm : WF m)
    (hk : k ∈ keysList m) :
    (keysList (set m k v)).Perm (keysList m) := by
  cases h : needsResize m
  · rw [set_eq_of_not_resize m k v h]
    exact keysList_insert_perm_mem m k v hm hk
  · rw [set_eq_of_resize m k v h]
    have hw := (resize_spec m hm).1
    have hk2 : k ∈ keysList (resize m) :=
      ((resize_spec m hm).2.2.2.2.1.mem_iff).2 hk
    exact (keysList_insert_perm_mem _ k v hw hk2).trans (resize_spec m hm).2.2.2.2.1

theorem keysList_set_perm_fresh (m : HashMap) (k : Key) (v : Val) (hm : WF m)
    (hk : k ∉ keysList m) :
    (keysList (set m k v)).Perm (k :: keysList m) := by
  cases h : needsResize m
  · rw [set_eq_of_not_resize m k v h]
    exact keysList_insert_perm_fresh m k v hm.1 hm.2.1 hk
  · rw [set_eq_of_resize m k v h]
    have hw := (resize_spec m hm).1
    have hk2 : k ∉ keysList (resize m) := fun hmem =>
      hk (((resize_spec m hm).2.2.2.2.1.mem_iff).1 hmem)
    exact (keysList_insert_perm_fresh _ k v hw.1 hw.2.1 hk2).trans
      ((resize_spec m hm).2.2.2.2.1.cons k)

/-! ### The traversal loops of `keys`, `values` and `entries` -/

theorem foldl_append_map {α : Type} (B : List (List Entry)) (f : Entry → α)
    (acc : List α) :
    B.foldl (fun a b => a ++ b.map f) acc = acc ++ B.flatten.map f := by
  induction B generalizing acc with
  | nil => simp
  | cons b t ih => simp [ih, List.append_assoc]

theorem keys_eq_map (m : HashMap) :
    keys m = (allEntries m).map Entry.key := by
  unfold keys allEntries
  rw [foldl_append_map]
  simp

theorem values_eq_map (m : HashMap) :
    values m = (allEntries m).map Entry.value := by
  unfold values allEntries
  rw [foldl_append_map]
  simp

theorem entries_eq_map (m : HashMap) :
    entries m = (allEntries m).map fmtEntry := by
  unfold entries allEntries
  rw [foldl_append_map]
  simp

theorem keys_eq_keysList (m : HashMap) : keys m = keysList m :=
  keys_eq_map m

/-! ### Lemmas about `remove` (swap-and-pop) -/

theorem map_eraseIdx {α : Type} (f : Entry → α) (b : List Entry) (i : Nat) :
    (b.eraseIdx i).map f = (b.map f).eraseIdx i := by
  induction b generalizing i with
  | nil => simp
  | cons e t ih =>
    cases i with
    | zero => simp
    | succ j => simp [List.eraseIdx_cons_succ, ih]

theorem nodup_eraseIdx_not_mem (l : List Key) (i : Nat) (k : Key)
    (hnd : l.Nodup) (hk : l[i]? = some k) : k ∉ l.eraseIdx i := by
  induction l generalizing i with
  | nil => simp at hk
  | cons a t ih =>
    cases i with
    | zero =>
      simp only [List.getElem?_cons_zero, Option.some_inj] at hk
      rw [List.eraseIdx_cons_zero, ← hk]
      exact (List.nodup_cons.1 hnd).1
    | succ j =>
      simp only [List.getElem?_cons_succ] at hk
      rw [List.eraseIdx_cons_succ]
      intro hmem
      rcases List.mem_cons.1 hmem with h | h
      · exact (List.nodup_cons.1 hnd).1 (h ▸ List.getElem?_mem hk)
      · exact ih j (List.nodup_cons.1 hnd).2 hk h

theorem findKeyIdx_none_iff (k : Key) (b : List Entry) :
    findKeyIdx k b = none ↔ k ∉ b.map Entry.key := by
  induction b with
  | nil => simp [findKeyIdx]
  | cons e t ih =>
    by_cases hek : e.key = k
    · simp [findKeyIdx, hek]
    · simp only [findKeyIdx, beq_iff_eq, hek, if_false, Option.map_eq_none',
        List.map_cons, List.mem_cons]
      rw [ih]
      constructor
      · intro h hmem
        rcases hmem with h2 | h2
        · exact hek h2.symm
        · exact h h2
      · intro h h2
        exact h (Or.inr h2)

theorem findKeyIdx_lt (k : Key) (b : List Entry) (i : Nat)
    (h : findKeyIdx k b = some i) : i < b.length := by
  induction b generalizing i with
  | nil => simp [findKeyIdx] at h
  | cons e t ih =>
    by_cases hek : e.key = k
    · simp only [findKeyIdx, beq_iff_eq, hek, if_true, Option.some_inj] at h
      rw [← h]
      simp
    · simp only [findKeyIdx, beq_iff_eq, hek, if_false, Option.map_eq_some'] at h
      obtain ⟨j, hj, hij⟩ := h
      rw [← hij]
      simpa using ih j hj

theorem findKeyIdx_map_key (k : Key) (b : List Entry) (i : Nat)
    (h : findKeyIdx k b = some i) : (b.map Entry.key)[i]? = some k := by
  induction b generalizing i with
  | nil => simp [findKeyIdx] at h
  | cons e t ih =>
    by_cases hek : e.key = k
    · simp only [findKeyIdx, beq_iff_eq, hek, if_true, Option.some_inj] at h
      rw [← h]
      simp [hek]
    · simp only [findKeyIdx, beq_iff_eq, hek, if_false, Option.map_eq_some'] at h
      obtain ⟨j, hj, hij⟩ := h
      rw [← hij]
      simpa using ih j hj

theorem swapPop_perm (k : Key) (b : List Entry) (i : Nat) (d : Entry)
    (h : findKeyIdx k b = some i) :
    ((b.set i (b.getLastD d)).dropLast).Perm (b.eraseIdx i) := by
  induction b generalizing i d with
  | nil => simp [findKeyIdx] at h
  | cons e t ih =>
    by_cases hek : e.key = k
    · have hi0 : i = 0 := by
        simp only [findKeyIdx, beq_iff_eq, hek, if_true, Option.some_inj] at h
        omega
      subst hi0
      cases t with
      | nil => simp
      | cons f t2 =>
        rw [List.set_cons_zero, List.dropLast_cons_of_ne_nil (by simp),
          List.eraseIdx_cons_zero]
        have hgl : (e :: f :: t2).getLastD d = (f :: t2).getLast (by simp) := by
          rw [List.getLastD_cons, List.getLastD_eq_getLast?,
            List.getLast?_eq_getLast _ (by simp)]
          rfl
        rw [hgl]
        refine ((List.perm_append_singleton _ _).symm).trans ?_
        rw [List.dropLast_append_getLast (by simp)]
    · obtain ⟨j, hj, hij⟩ : ∃ j, findKeyIdx k t = some j ∧ i = j + 1 := by
        simp only [findKeyIdx, beq_iff_eq, hek, if_false, Option.map_eq_some'] at h
        obtain ⟨j, hj, hij⟩ := h
        exact ⟨j, hj, hij.symm⟩
      subst hij
      have hjlt : j < t.length := findKeyIdx_lt k t j hj
      have htne : t ≠ [] := by
        intro h0
        rw [h0] at hjlt
        simp at hjlt
      have hsetne : t.set j (t.getLastD e) ≠ [] := by
        intro h0
        have := congrArg List.length h0
        simp at this
        rw [this] at hjlt
        simp at hjlt
      rw [List.set_cons_succ, List.eraseIdx_cons_succ, List.getLastD_cons,
        List.dropLast_cons_of_ne_nil hsetne]
      exact (ih j e hj).cons e

theorem bucket_find_none_iff (k : Key) (b : List Entry) :
    List.find? (fun e => e.key == k) b = none ↔ k ∉ b.map Entry.key := by
  rw [List.find?_eq_none]
  constructor
  · intro h hmem
    obtain ⟨e, he, hek⟩ := List.mem_map.1 hmem
    exact (h e he) (by simp [hek])
  · intro h e he
    simp only [beq_iff_eq, Bool.not_eq_true, decide_eq_false_iff_not]
    intro hek
    exact h (List.mem_map.2 ⟨e, he, hek⟩)

theorem remove_not_has (m : HashMap) (k : Key) (h : has m k = false) :
    remove m k = (m, false) := by
  unfold remove
  rw [h]
  simp

/-- Everything `remove` guarantees on a well-formed table when the key is
visible through `has`: the removal happens, well-formedness is kept, the
size drops by exactly one, capacity and resize counter are untouched, and
the key is gone. -/
theorem remove_spec_found (m : HashMap) (k : Key) (hm : WF m)
    (hhas : has m k = true) :
    (remove m k).2 = true ∧
    WF (remove m k).1 ∧
    (remove m k).1.size + 1 = m.size ∧
    (remove m k).1.capacity = m.capacity ∧
    (remove m k).1.resizeCount = m.resizeCount ∧
    has (remove m k).1 k = false := by
  obtain ⟨hcap, hlen, hidxI, hnd, hsz⟩ := hm
  have hlt : hash k m.capacity < m.buckets.length := by
    rw [hlen]
    exact hash_lt k _ hcap
  have hfind : ∃ e, List.find? (fun x => x.key == k)
      (m.buckets.getD (hash k m.capacity) []) = some e := by
    cases hf : List.find? (fun x => x.key == k)
        (m.buckets.getD (hash k m.capacity) []) with
    | some e => exact ⟨e, rfl⟩
    | none =>
      exfalso
      have hg : get m k = none := by
        rw [get_eq_bucketGet]
        unfold bucketGet
        rw [hf]
      unfold has at hhas
      rw [hg] at hhas
      simp at hhas
  obtain ⟨e0, hf⟩ := hfind
  have hkmem : k ∈ (m.buckets.getD (hash k m.capacity) []).map Entry.key :=
    List.mem_map.2 ⟨e0, List.mem_of_find?_eq_some hf, by simpa using List.find?_some hf⟩
  obtain ⟨j, hj⟩ : ∃ j, findKeyIdx k (m.buckets.getD (hash k m.capacity) []) = some j := by
    cases hjf : findKeyIdx k (m.buckets.getD (hash k m.capacity) []) with
    | some j => exact ⟨j, rfl⟩
    | none => exact absurd hkmem ((findKeyIdx_none_iff k _).1 hjf)
  have hjlt : j < (m.buckets.getD (hash k m.capacity) []).length :=
    findKeyIdx_lt k _ j hj
  set b0 := m.buckets.getD (hash k m.capacity) [] with hb0
  set nb := (b0.set j (b0.getLastD ⟨[], none⟩)).dropLast with hnb
  set m2 : HashMap :=
    { m with buckets := m.buckets.set (hash k m.capacity) nb, size := m.size - 1 }
    with hm2
  have hremeq : remove m k = (m2, true) := by
    simp only [remove, swapPopRemove, hhas, if_true]
    rw [← hb0, hj]
    rfl
  have hperm : nb.Perm (b0.eraseIdx j) := swapPop_perm k b0 j _ hj
  have hlenb : nb.length + 1 = b0.length := by
    rw [hperm.length_eq]
    exact List.length_eraseIdx_add_one hjlt
  have hbsub : b0.Sublist (allEntries m) :=
    List.sublist_flatten_of_mem (getD_mem _ _ hlt)
  have hbknodup : (b0.map Entry.key).Nodup :=
    (hbsub.map Entry.key).nodup hnd
  have hkat : (b0.map Entry.key)[j]? = some k := findKeyIdx_map_key k b0 j hj
  have hknotin : k ∉ (b0.map Entry.key).eraseIdx j :=
    nodup_eraseIdx_not_mem _ j k hbknodup hkat
  have hkeysperm : (nb.map Entry.key).Perm ((b0.map Entry.key).eraseIdx j) := by
    have h0 := hperm.map Entry.key
    rwa [map_eraseIdx] at h0
  have hknotin2 : k ∉ nb.map Entry.key :=
    fun hmem => hknotin (hkeysperm.mem_iff.1 hmem)
  have hflat := flatten_set_perm m.buckets (hash k m.capacity) nb hlt
  rw [← hb0] at hflat
  have hsizelb : 0 < m.size := by
    rw [hsz]
    have h1 := hbsub.length_le
    omega
  have hm2buckets : m2.buckets = m.buckets.set (hash k m.capacity) nb := rfl
  have hm2size : m2.size = m.size - 1 := rfl
  have hm2cap : m2.capacity = m.capacity := rfl
  rw [hremeq]
  refine ⟨rfl, ⟨hcap, ?_, ?_, ?_, ?_⟩, ?_, rfl, rfl, ?_⟩
  · rw [hm2buckets, List.length_set, hlen, hm2cap]
  · intro j2 hj2 e he
    rw [hm2buckets, List.length_set] at hj2
    rw [hm2buckets] at he
    rw [hm2cap]
    by_cases hji : j2 = hash k m.capacity
    · subst hji
      rw [getD_set_self _ _ _ hlt] at he
      have hmem2 : e ∈ b0.eraseIdx j := hperm.mem_iff.1 he
      have hmem3 : e ∈ b0 := (List.eraseIdx_sublist _ j).subset hmem2
      rw [hb0] at hmem3
      exact hidxI _ hlt e hmem3
    · rw [getD_set_ne _ _ _ _ (fun h => hji h.symm)] at he
      exact hidxI j2 hj2 e he
  · rw [List.nodup_iff_count_le_one]
    intro a
    have hc := (List.perm_iff_count.1 (hflat.map Entry.key)) a
    simp only [List.map_append, List.count_append] at hc
    have hle1 := (List.perm_iff_count.1 hkeysperm) a
    have hle2 := @List.Sublist.count_le Key (@instBEqOfDecidableEq Key _) _ _
      (List.eraseIdx_sublist (b0.map Entry.key) j) a
    have hnd1 := (List.nodup_iff_count_le_one.1 hnd) a
    simp only [keysList, allEntries, hm2buckets] at hnd1 hc ⊢
    omega
  · have hlens := hflat.length_eq
    simp only [List.length_append] at hlens
    simp only [allEntries, hm2buckets] at hsz ⊢
    omega
  · rw [hm2size]
    omega
  · unfold has
    have hget2 : get m2 k = none := by
      rw [get_eq_bucketGet, hm2cap, hm2buckets, getD_set_self _ _ _ hlt]
      unfold bucketGet
      rw [(bucket_find_none_iff k nb).2 hknotin2]
    rw [hget2]
    rfl

/-! ### Constructor, `clear`, and the reachable-state invariant -/

theorem new_WF (c : Nat) (hc : 0 < c) : WF (new c) := by
  refine ⟨hc, by simp [new], ?_, ?_, ?_⟩
  · intro j hj e he
    rw [show (new c).buckets = List.replicate c [] from rfl, getD_replicate_nil] at he
    exact absurd he (List.not_mem_nil e)
  · simp [keysList, allEntries, new, flatten_replicate_nil]
  · simp [allEntries, new, flatten_replicate_nil]

theorem clear_WF (m : HashMap) (hm : WF m) : WF (clear m) := by
  refine ⟨hm.1, by simp [clear], ?_, ?_, ?_⟩
  · intro j hj e he
    rw [show (clear m).buckets = List.replicate m.capacity [] from rfl,
      getD_replicate_nil] at he
    exact absurd he (List.not_mem_nil e)
  · simp [keysList, allEntries, clear, flatten_replicate_nil]
  · simp [allEntries, clear, flatten_replicate_nil]

theorem clear_capacity (m : HashMap) : (clear m).capacity = m.capacity := rfl

theorem clear_size (m : HashMap) : (clear m).size = 0 := rfl

theorem clear_get (m : HashMap) (k : Key) : get (clear m) k = none := by
  rw [get_eq_bucketGet, show (clear m).buckets = List.replicate m.capacity [] from rfl,
    getD_replicate_nil]
  exact bucketGet_nil k

theorem needsResize_false_iff (m : HashMap) :
    needsResize m = false ↔ 4 * m.size ≤ 3 * m.capacity := by
  unfold needsResize
  simp

theorem needsResize_true_iff (m : HashMap) :
    needsResize m = true ↔ 3 * m.capacity < 4 * m.size := by
  unfold needsResize
  simp

theorem set_Bound (m : HashMap) (k : Key) (v : Val) (hm : WF m) (hb : Bound m) :
    Bound (set m k v) := by
  unfold Bound at hb ⊢
  have hcap := hm.1
  rw [set_capacity m k v hm]
  by_cases hk : k ∈ keysList m
  · rw [set_size_mem m k v hm hk]
    cases h : needsResize m
    · simp only [Bool.false_eq_true, if_false]
      omega
    · simp only [if_true]
      omega
  · rw [set_size_fresh m k v hm hk]
    cases h : needsResize m
    · have := (needsResize_false_iff m).1 h
      simp only [Bool.false_eq_true, if_false]
      omega
    · simp only [if_true]
      omega

/-- The post-insertion load bound for a fresh key: the pre-insertion size
still fits under three quarters of the final capacity. -/
theorem set_fresh_postload (m : HashMap) (k : Key) (v : Val)
    (hm : WF m) (hb : Bound m) :
    4 * m.size ≤ 3 * (set m k v).capacity := by
  have hcap := hm.1
  unfold Bound at hb
  rw [set_capacity m k v hm]
  cases h : needsResize m
  · have := (needsResize_false_iff m).1 h
    simp only [Bool.false_eq_true, if_false]
    omega
  · simp only [if_true]
    omega

/-- Every state reachable through the public API is well-formed and obeys
the growth bound. -/
theorem reachable_WF_Bound (m : HashMap) (hm : Reachable m) :
    WF m ∧ Bound m := by
  induction hm with
  | new c hc =>
    refine ⟨new_WF c hc, ?_⟩
    unfold Bound
    simp [new]
  | set hr k v ih =>
    exact ⟨set_WF _ k v ih.1, set_Bound _ k v ih.1 ih.2⟩
  | remove hr k ih =>
    rename_i m0
    cases hhas : has m0 k
    · rw [remove_not_has m0 k hhas]
      exact ih
    · obtain ⟨h1, h2, h3, h4, h5, h6⟩ := remove_spec_found m0 k ih.1 hhas
      refine ⟨h2, ?_⟩
      unfold Bound at ih ⊢
      rw [h4]
      omega
  | clear hr ih =>
    rename_i m0
    refine ⟨clear_WF m0 ih.1, ?_⟩
    unfold Bound
    rw [clear_capacity, clear_size]
    omega

/-! ### Claim theorems -/

/-- C1, counterexample: starting from the reachable capacity-16 table
holding the twelve scenario keys, the `set` call inserting the fresh
thirteenth key `m` completes with `length() / capacity = 13/16 > 0.75`,
so the claimed bound `length() / capacity <= 0.75` immediately after an
inserting `set` is false. -/
theorem load_factor_cex :
    [109] ∉ keys ex12 ∧
    4 * (HashMap.set ex12 [109] (some "x")).size >
      3 * (HashMap.set ex12 [109] (some "x")).capacity := by
  decide

/-- C1, amended: after any `set` that inserts a new key into a reachable
table, `(length() - 1) / capacity <= 0.75` holds: the resize gate uses
the pre-insertion size, so only the pre-insertion load factor is kept
under the threshold and the post-insertion load factor may exceed 0.75
by at most one entry. -/
theorem load_factor_amended (m : HashMap) (k : Key) (v : Val)
    (hm : Reachable m) (hk : k ∉ keys m) :
    (HashMap.set m k v).size = m.size + 1 ∧
    4 * ((HashMap.set m k v).size - 1) ≤ 3 * (HashMap.set m k v).capacity := by
  obtain ⟨hwf, hb⟩ := reachable_WF_Bound m hm
  have hk2 : k ∉ keysList m := by rwa [keys_eq_keysList] at hk
  have h1 := set_size_fresh m k v hwf hk2
  have h2 := set_fresh_postload m k v hwf hb
  refine ⟨h1, ?_⟩
  rw [h1]
  simpa using h2

/-- C1, witness: the amended bound at a concrete reachable table. -/
theorem load_factor_amended_witness :
    (HashMap.set (HashMap.new 16) [97] (some "x")).size = (HashMap.new 16).size + 1 ∧
    4 * ((HashMap.set (HashMap.new 16) [97] (some "x")).size - 1) ≤
      3 * (HashMap.set (HashMap.new 16) [97] (some "x")).capacity :=
  load_factor_amended (HashMap.new 16) [97] (some "x")
    (Reachable.new 16 (by decide)) (by decide)

/-- C2, counterexample: with twelve distinct keys in a capacity-16 table,
the `set` call inserting a thirteenth distinct key does not resize at
all (capacity stays 16 and the resize counter does not move), so the
claimed doubling to 32 on that call is false. -/
theorem resize_trigger_cex :
    ex12.size = 12 ∧ ex12.capacity = 16 ∧ [109] ∉ keys ex12 ∧
    (HashMap.set ex12 [109] (some "s")).capacity = 16 ∧
    (HashMap.set ex12 [109] (some "s")).resizeCount = ex12.resizeCount := by
  decide

/-- C2, amended: from a well-formed capacity-16 table with twelve
entries, inserting a thirteenth distinct key does not resize
(`12/16 = 0.75` does not exceed the threshold); the next `set` with a
fourteenth distinct key finds `13/16 > 0.75` and performs exactly one
doubling to capacity 32 before its insert completes. -/
theorem resize_trigger_amended (m : HashMap) (k k2 : Key) (v v2 : Val)
    (hm : WF m) (hc16 : m.capacity = 16) (hs12 : m.size = 12)
    (hk : k ∉ keys m) (hk2 : k2 ∉ keys (HashMap.set m k v)) :
    (HashMap.set m k v).capacity = 16 ∧
    (HashMap.set m k v).size = 13 ∧
    (HashMap.set m k v).resizeCount = m.resizeCount ∧
    (HashMap.set (HashMap.set m k v) k2 v2).capacity = 32 ∧
    (HashMap.set (HashMap.set m k v) k2 v2).resizeCount =
      (HashMap.set m k v).resizeCount + 1 := by
  have hkm : k ∉ keysList m := by rwa [keys_eq_keysList] at hk
  have hk2m : k2 ∉ keysList (HashMap.set m k v) := by
    rwa [keys_eq_keysList] at hk2
  have hnr : needsResize m = false :=
    (needsResize_false_iff m).2 (by rw [hc16, hs12])
  have hcap1 : (HashMap.set m k v).capacity = 16 := by
    rw [set_capacity m k v hm, hnr, hc16]
    simp
  have hsz1 : (HashMap.set m k v).size = 13 := by
    rw [set_size_fresh m k v hm hkm, hs12]
  have hw1 : WF (HashMap.set m k v) := set_WF m k v hm
  have hnr2 : needsResize (HashMap.set m k v) = true :=
    (needsResize_true_iff _).2 (by rw [hcap1, hsz1]; omega)
  refine ⟨hcap1, hsz1, ?_, ?_, ?_⟩
  · rw [set_resizeCount m k v hm, hnr]
    simp
  · rw [set_capacity _ k2 v2 hw1, hnr2, hcap1]
    simp
  · rw [set_resizeCount _ k2 v2 hw1, hnr2]
    simp

/-- C2, witness: the amended trigger behavior on the concrete scenario
table with keys `a` through `l`, then `m`, then `n`. -/
theorem resize_trigger_amended_witness :
    (HashMap.set ex12 [109] (some "s")).capacity = 16 ∧
    (HashMap.set ex12 [109] (some "s")).size = 13 ∧
    (HashMap.set ex12 [109] (some "s")).resizeCount = ex12.resizeCount ∧
    (HashMap.set (HashMap.set ex12 [109] (some "s")) [110] (some "t")).capacity = 32 ∧
    (HashMap.set (HashMap.set ex12 [109] (some "s")) [110] (some "t")).resizeCount =
      (HashMap.set ex12 [109] (some "s")).resizeCount + 1 :=
  resize_trigger_amended ex12 [109] [110] (some "s") (some "t")
    (by decide) (by decide) (by decide) (by decide) (by decide)

/-- C3, counterexample: in the reachable thirteen-entry capacity-16
table, a `set` on the already-present key `a` is an update, yet the
resize gate still fires and the capacity changes from 16 to 32 — the
claimed exemption of updates from the resize check is false. -/
theorem update_resize_cex :
    [97] ∈ keys ex13 ∧
    (HashMap.set ex13 [97] (some "z")).size = ex13.size ∧
    ex13.capacity = 16 ∧
    (HashMap.set ex13 [97] (some "z")).capacity = 32 := by
  decide

/-- C3, amended: a `set` on a key already present never changes the size,
but it is not exempt from the resize check: the capacity doubles when
the pre-call load factor exceeds 0.75 and is unchanged otherwise. -/
theorem update_frame_amended (m : HashMap) (k : Key) (v : Val)
    (hm : WF m) (hk : k ∈ keys m) :
    (HashMap.set m k v).size = m.size ∧
    (HashMap.set m k v).capacity =
      (if needsResize m then m.capacity * 2 else m.capacity) := by
  have hk2 : k ∈ keysList m := by rwa [keys_eq_keysList] at hk
  exact ⟨set_size_mem m k v hm hk2, set_capacity m k v hm⟩

/-- C3, witness: the amended update frame at a concrete one-entry table. -/
theorem update_frame_amended_witness :
    (HashMap.set (HashMap.set (HashMap.new 16) [97] (some "x")) [97] (some "y")).size =
      (HashMap.set (HashMap.new 16) [97] (some "x")).size ∧
    (HashMap.set (HashMap.set (HashMap.new 16) [97] (some "x")) [97] (some "y")).capacity =
      (if needsResize (HashMap.set (HashMap.new 16) [97] (some "x")) then
        (HashMap.set (HashMap.new 16) [97] (some "x")).capacity * 2
      else (HashMap.set (HashMap.new 16) [97] (some "x")).capacity) :=
  update_frame_amended (HashMap.set (HashMap.new 16) [97] (some "x")) [97] (some "y")
    (by decide) (by decide)

/-- C4, counterexample: with the in-band value `undefined`, `set`
followed by `has` on the same key returns `false`, so the round-trip
claim fails at `v = undefined`. -/
theorem roundtrip_cex :
    get (HashMap.set (HashMap.new 16) [97] none) [97] = none ∧
    has (HashMap.set (HashMap.new 16) [97] none) [97] = false := by
  decide

/-- C4, amended: immediately after `set(k, v)` on a well-formed table,
`get(k) == v` always holds, and `has(k) == true` holds provided `v` is
not `undefined`. -/
theorem roundtrip_amended (m : HashMap) (k : Key) (v : Val) (hm : WF m) :
    get (HashMap.set m k v) k = v ∧
    (v ≠ none → has (HashMap.set m k v) k = true) := by
  refine ⟨set_get_self m k v hm, ?_⟩
  intro hv
  unfold has
  rw [set_get_self m k v hm]
  cases v with
  | none => exact absurd rfl hv
  | some s => rfl

/-- C4, witness: the amended round trip at a concrete table and value. -/
theorem roundtrip_amended_witness :
    get (HashMap.set (HashMap.new 16) [97] (some "red")) [97] = some "red" ∧
    ((some "red" : Val) ≠ none →
      has (HashMap.set (HashMap.new 16) [97] (some "red")) [97] = true) :=
  roundtrip_amended (HashMap.new 16) [97] (some "red") (by decide)

/-- C5, counterexample: after `set(k, undefined)` the table holds one
entry, but `remove(k)` is gated on `has` and returns `false`, leaving
the length at 1 instead of decreasing it by exactly 1. -/
theorem removal_cex :
    length (HashMap.set (HashMap.new 16) [97] none) = 1 ∧
    (remove (HashMap.set (HashMap.new 16) [97] none) [97]).2 = false ∧
    length (remove (HashMap.set (HashMap.new 16) [97] none) [97]).1 = 1 := by
  decide

/-- C5, amended: for `v` other than `undefined`, `set(k, v); remove(k)`
on a well-formed table yields `has(k) == false` and a length exactly one
below the post-`set` length; and whenever `has(k)` is `false` (in
particular for every absent key), `remove` returns `false` and leaves
the table, hence its length, unchanged. -/
theorem removal_amended (m : HashMap) (k : Key) (v : Val) (hm : WF m) :
    (v ≠ none →
      (remove (HashMap.set m k v) k).2 = true ∧
      has (remove (HashMap.set m k v) k).1 k = false ∧
      length (remove (HashMap.set m k v) k).1 + 1 = length (HashMap.set m k v)) ∧
    (has m k = false → remove m k = (m, false)) := by
  constructor
  · intro hv
    have hw := set_WF m k v hm
    have hhas : has (HashMap.set m k v) k = true := by
      unfold has
      rw [set_get_self m k v hm]
      cases v with
      | none => exact absurd rfl hv
      | some s => rfl
    obtain ⟨r1, r2, r3, r4, r5, r6⟩ := remove_spec_found (HashMap.set m k v) k hw hhas
    exact ⟨r1, r6, r3⟩
  · exact remove_not_has m k

/-- C5, witness: the amended removal behavior at a concrete key and
value. -/
theorem removal_amended_witness :
    (((some "red" : Val) ≠ none →
      (remove (HashMap.set (HashMap.new 16) [97] (some "red")) [97]).2 = true ∧
      has (remove (HashMap.set (HashMap.new 16) [97] (some "red")) [97]).1 [97] = false ∧
      length (remove (HashMap.set (HashMap.new 16) [97] (some "red")) [97]).1 + 1 =
        length (HashMap.set (HashMap.new 16) [97] (some "red"))) ∧
    (has (HashMap.new 16) [97] = false →
      remove (HashMap.new 16) [97] = (HashMap.new 16, false))) :=
  removal_amended (HashMap.new 16) [97] (some "red") (by decide)

/-- C6: on a well-formed table `_resize` always exactly doubles the
capacity, preserves the tracked size, and maps every key to the same
value as before the rehash. -/
theorem resize_contract (m : HashMap) (hm : WF m) :
    (resize m).capacity = 2 * m.capacity ∧
    (resize m).size = m.size ∧
    ∀ k, get (resize m) k = get m k := by
  obtain ⟨W, S, C, R, P, G⟩ := resize_spec m hm
  refine ⟨?_, S, G⟩
  rw [C]
  ring

/-- C6, witness: the resize contract applied to the concrete
thirteen-entry table. -/
theorem resize_contract_witness :
    (resize ex13).capacity = 2 * ex13.capacity ∧
    (resize ex13).size = ex13.size ∧
    ∀ k, get (resize ex13) k = get ex13 k :=
  resize_contract ex13 (by decide)

/-- C7: the hash function is deterministic (it is a function of the key
and capacity alone), lands in `[0, capacity)` for positive capacity, and
is exactly the rolling accumulation `hash = (hash * 31 + charCode) mod
capacity` started at 0. -/
theorem hash_contract (k : Key) (c : Nat) (hc : 0 < c) :
    hash k c < c ∧ hash [] c = 0 ∧
    ∀ (k2 : Key) (a : Nat), hash (k2 ++ [a]) c = (hash k2 c * 31 + a) % c :=
  ⟨hash_lt k c hc, rfl, fun k2 a => hash_append_char k2 a c⟩

/-- C7, witness: the hash contract at a concrete key and capacity. -/
theorem hash_contract_witness :
    hash [104, 105] 16 < 16 ∧ hash [] 16 = 0 ∧
    ∀ (k2 : Key) (a : Nat), hash (k2 ++ [a]) 16 = (hash k2 16 * 31 + a) % 16 :=
  hash_contract [104, 105] 16 (by decide)

/-- C8: in every reachable table state the lists returned by `keys`,
`values` and `entries` all have exactly `length()` elements: the tracked
size equals the number of stored entries and each traversal yields one
element per entry. -/
theorem iteration_completeness (m : HashMap) (hm : Reachable m) :
    (keys m).length = length m ∧
    (values m).length = length m ∧
    (entries m).length = length m := by
  have hwf := (reachable_WF_Bound m hm).1
  have hsz : m.size = (allEntries m).length := hwf.2.2.2.2
  unfold length
  rw [keys_eq_map, values_eq_map, entries_eq_map]
  simp [hsz]

/-- C8, witness: iteration completeness at a concrete reachable state. -/
theorem iteration_completeness_witness :
    (keys (HashMap.set (HashMap.new 16) [97] (some "x"))).length =
      length (HashMap.set (HashMap.new 16) [97] (some "x")) ∧
    (values (HashMap.set (HashMap.new 16) [97] (some "x"))).length =
      length (HashMap.set (HashMap.new 16) [97] (some "x")) ∧
    (entries (HashMap.set (HashMap.new 16) [97] (some "x"))).length =
      length (HashMap.set (HashMap.new 16) [97] (some "x")) :=
  iteration_completeness (HashMap.set (HashMap.new 16) [97] (some "x"))
    (Reachable.set (Reachable.new 16 (by decide)) [97] (some "x"))

/-- C9: `entries` returns one element per stored entry — the rendering of
its (key, value) pair — in bucket-index order then chain order, and
`keys` and `values` return the key and value projections in exactly that
same order. -/
theorem entries_order (m : HashMap) :
    entries m = (allEntries m).map fmtEntry ∧
    keys m = (allEntries m).map Entry.key ∧
    values m = (allEntries m).map Entry.value :=
  ⟨entries_eq_map m, keys_eq_map m, values_eq_map m⟩

/-- C10: `undefined` is an in-band absence sentinel: after
`set(k, undefined)` on a fresh key the entry is stored (it is listed by
`keys` and counted by `length`), yet `has` reports `false` and `remove`
returns `false` without touching the table, because `has` is
`get(k) !== undefined` and `remove` is gated on `has`. -/
theorem undefined_sentinel (m : HashMap) (k : Key) (hm : WF m)
    (hk : k ∉ keys m) :
    k ∈ keys (HashMap.set m k none) ∧
    length (HashMap.set m k none) = length m + 1 ∧
    has (HashMap.set m k none) k = false ∧
    remove (HashMap.set m k none) k = (HashMap.set m k none, false) := by
  have hk2 : k ∉ keysList m := by rwa [keys_eq_keysList] at hk
  have hperm := keysList_set_perm_fresh m k none hm hk2
  have hhasf : has (HashMap.set m k none) k = false := by
    unfold has
    rw [set_get_self m k none hm]
    rfl
  refine ⟨?_, ?_, hhasf, ?_⟩
  · rw [keys_eq_keysList]
    exact hperm.mem_iff.2 (by simp)
  · unfold length
    exact set_size_fresh m k none hm hk2
  · exact remove_not_has _ k hhasf

/-- C10, witness: the sentinel behavior at a concrete fresh key. -/
theorem undefined_sentinel_witness :
    [97] ∈ keys (HashMap.set (HashMap.new 16) [97] none) ∧
    length (HashMap.set (HashMap.new 16) [97] none) = length (HashMap.new 16) + 1 ∧
    has (HashMap.set (HashMap.new 16) [97] none) [97] = false ∧
    remove (HashMap.set (HashMap.new 16) [97] none) [97] =
      (HashMap.set (HashMap.new 16) [97] none, false) :=
  undefined_sentinel (HashMap.new 16) [97] (by decide) (by decide)

end HashMap
